import Mathlib

/-!
Shallow embedding of the Mandelbrot renderer
(`src/examples/mandelbrot/src/main.rs`) and of the GCD routine
(`examples/gcd_web_server_v1/src/main.rs`).

Floating-point (`f64`) arithmetic of the source is embedded as exact
rational (`ℚ`) arithmetic; machine integers (`usize`, `u32`, `u64`) are
embedded as `ℕ` with explicit range side conditions where they matter.
The concurrent stripe rendering writes disjoint regions of one buffer,
so it is embedded as the concatenation of the sequentially rendered
stripes.
-/

namespace Mandelbrot

/-- Embedding of `num::Complex<f64>`: a complex number as a pair of
rationals. -/
structure Cx where
  re : ℚ
  im : ℚ
deriving DecidableEq, Repr

/-- Complex addition, as in the `num` crate. -/
def Cx.add (a b : Cx) : Cx := ⟨a.re + b.re, a.im + b.im⟩

/-- Complex multiplication, as in the `num` crate. -/
def Cx.mul (a b : Cx) : Cx := ⟨a.re * b.re - a.im * b.im, a.re * b.im + a.im * b.re⟩

/-- Embedding of `Complex::norm_sqr`: `re*re + im*im`. -/
def Cx.norm_sqr (z : Cx) : ℚ := z.re * z.re + z.im * z.im

/-- Embedding of the loop body sequence of `escape_time` (main.rs lines
125-135): with `fuel` iterations remaining and the next iteration index
being `idx`, update `z ← z*z + c`, report `some idx` as soon as
`norm_sqr z > 4`, and `none` when the fuel runs out. -/
def escape_time_go (c : Cx) (z : Cx) (idx : ℕ) : ℕ → Option ℕ
  | 0 => none
  | fuel + 1 =>
    let z1 := (z.mul z).add c
    if 4 < z1.norm_sqr then some idx else escape_time_go c z1 (idx + 1) fuel

/-- Embedding of `escape_time` (main.rs lines 125-135): iterate
`z ← z*z + c` from `z = 0` for at most `limit` steps, returning the
first iteration index `i` with `norm_sqr z > 4`, else `none`. -/
def escape_time (c : Cx) (limit : ℕ) : Option ℕ :=
  escape_time_go c ⟨0, 0⟩ 0 limit

/-- Embedding of `pixel_to_complex` (main.rs lines 141-162): linear
interpolation of the pixel position into the viewport rectangle, with
the imaginary axis inverted relative to the pixel row. -/
def pixel_to_complex (bounds : ℕ × ℕ) (pixel : ℕ × ℕ)
    (upper_left lower_right : Cx) : Cx :=
  let width : ℚ := lower_right.re - upper_left.re
  let height : ℚ := upper_left.im - lower_right.im
  { re := upper_left.re + (pixel.1 : ℚ) * width / (bounds.1 : ℚ)
    im := upper_left.im - (pixel.2 : ℚ) * height / (bounds.2 : ℚ) }

/-- The grayscale intensity `render` stores for one point (main.rs lines
191-194): `0` when `escape_time` reports non-escape within 255
iterations, and `255 - i` when it reports escape at iteration `i`. -/
def intensity (point : Cx) : ℕ :=
  match escape_time point 255 with
  | none => 0
  | some iterations_count => 255 - iterations_count

/-- Embedding of `render` (main.rs lines 177-197). The `assert!` on the
buffer length becomes the `none` branch; otherwise the double loop over
rows and columns writes `intensity` of the mapped point at linear index
`row * width + column`. -/
def render (pixels : List ℕ) (bounds : ℕ × ℕ)
    (upper_left lower_right : Cx) : Option (List ℕ) :=
  if pixels.length = bounds.1 * bounds.2 then
    some ((List.range bounds.2).foldl (fun buf row =>
      (List.range bounds.1).foldl (fun b column =>
        b.set (row * bounds.1 + column)
          (intensity (pixel_to_complex bounds (column, row) upper_left lower_right)))
        buf) pixels)
  else none

/-- Embedding of `rows_per_stripe = bounds.1 / threads + 1` (main.rs
line 48). -/
def rows_per_stripe (height threads : ℕ) : ℕ := height / threads + 1

/-- Embedding of `chunks_mut(size)` on a byte buffer: consecutive chunks
of `size` elements, the last one possibly shorter. `chunks_mut` panics
on `size = 0`; that unreachable case is embedded as no chunks. -/
def chunks (l : List ℕ) (size : ℕ) : List (List ℕ) :=
  if size = 0 then []
  else if l.length = 0 then []
  else l.take size :: chunks (l.drop size) size
termination_by l.length
decreasing_by
  simp only [List.length_drop]
  omega

/-- Helper for reasoning about `chunks`: the list of chunk lengths when
a buffer of `L` elements is cut into chunks of `size` elements. -/
def chunkSizes (size : ℕ) (L : ℕ) : List ℕ :=
  if size = 0 then []
  else if L = 0 then []
  else min size L :: chunkSizes size (L - size)
termination_by L
decreasing_by omega

/-- The stripes the scheduler creates (main.rs lines 50-52): the chunks
of `rows_per_stripe * width` buffer elements over the zero-initialized
`width * height` pixel buffer. -/
def stripes (width height threads : ℕ) : List (List ℕ) :=
  chunks (List.replicate (width * height) 0) (rows_per_stripe height threads * width)

/-- The pixel-row height of each stripe, as the spawning loop computes
it (main.rs line 56): `stripe.len() / bounds.0`. -/
def stripeHeights (width height threads : ℕ) : List ℕ :=
  (stripes width height threads).map (fun s => s.length / width)

/-- Embedding of the spawning loop of `main` (main.rs lines 54-65):
stripe `i` starts at global row `top = rows_per_stripe * i`, has height
`stripe.len() / width`, and is rendered against the locally recomputed
viewport corners obtained from `pixel_to_complex` on the global bounds.
The disjoint concurrent writes are embedded as concatenation in stripe
order. -/
def renderStripes (bounds : ℕ × ℕ) (upper_left lower_right : Cx)
    (rps : ℕ) : List (List ℕ) → ℕ → Option (List ℕ)
  | [], _ => some []
  | stripe :: rest, i =>
    let top := rps * i
    let height := stripe.length / bounds.1
    let stripe_bounds := (bounds.1, height)
    let stripe_upper_left := pixel_to_complex bounds (0, top) upper_left lower_right
    let stripe_lower_right :=
      pixel_to_complex bounds (bounds.1, top + height) upper_left lower_right
    match render stripe stripe_bounds stripe_upper_left stripe_lower_right,
          renderStripes bounds upper_left lower_right rps rest (i + 1) with
    | some s, some r => some (s ++ r)
    | _, _ => none

/-- Embedding of the whole scheduling block of `main` (main.rs lines
42-68): zero-initialize the buffer, cut it into stripes of
`rows_per_stripe * width` elements, and render each stripe with its
locally recomputed viewport. -/
def parallelRender (bounds : ℕ × ℕ) (upper_left lower_right : Cx)
    (threads : ℕ) : Option (List ℕ) :=
  renderStripes bounds upper_left lower_right (rows_per_stripe bounds.2 threads)
    (stripes bounds.1 bounds.2 threads) 0

end Mandelbrot

namespace GcdServer

/-- Embedding of the `while m != 0` loop of `gcd`
(gcd_web_server_v1/main.rs lines 96-103): one iteration swaps when
`m < n` and then takes `m %= n`. In the source, reaching `m %= n` with
`n = 0` would panic; the assert and the loop invariant keep `n ≠ 0`, and
that unreachable state is embedded as the junk value `0`. -/
def gcd_loop (m n : ℕ) : ℕ :=
  if m = 0 then n
  else if m < n then gcd_loop (n % m) m
  else if n = 0 then 0
  else gcd_loop (m % n) n
termination_by m
decreasing_by
  · exact Nat.mod_lt _ (Nat.pos_of_ne_zero (by assumption))
  · exact Nat.lt_of_lt_of_le (Nat.mod_lt _ (Nat.pos_of_ne_zero (by assumption)))
      (Nat.le_of_not_lt (by assumption))

/-- Embedding of `gcd` (gcd_web_server_v1/main.rs lines 94-105): the
`assert!(m != 0 && n != 0)` becomes the `none` branch. -/
def gcd (m n : ℕ) : Option ℕ :=
  if m ≠ 0 ∧ n ≠ 0 then some (gcd_loop m n) else none

end GcdServer

namespace Mandelbrot

lemma escape_time_go_some {c z : Cx} {idx i : ℕ} :
    ∀ {fuel : ℕ}, escape_time_go c z idx fuel = some i → idx ≤ i ∧ i < idx + fuel := by
  intro fuel
  induction fuel generalizing z idx with
  | zero => intro h; simp [escape_time_go] at h
  | succ fuel ih =>
    intro h
    rw [escape_time_go] at h
    split at h
    · simp only [Option.some.injEq] at h
      omega
    · have := ih h
      omega

lemma foldl_set_length (g : ℕ → ℕ) (off : ℕ) :
    ∀ (W : ℕ) (buf : List ℕ),
      ((List.range W).foldl (fun b c => b.set (off + c) (g c)) buf).length = buf.length := by
  intro W
  induction W with
  | zero => intro buf; rfl
  | succ W ih =>
    intro buf
    rw [List.range_succ, List.foldl_append, List.foldl_cons, List.foldl_nil,
      List.length_set, ih]

lemma foldl_set_getElem? (g : ℕ → ℕ) (off : ℕ) :
    ∀ (W : ℕ) (buf : List ℕ) (j : ℕ),
      ((List.range W).foldl (fun b c => b.set (off + c) (g c)) buf)[j]? =
        if off ≤ j ∧ j < off + W ∧ j < buf.length then some (g (j - off))
        else buf[j]? := by
  intro W
  induction W with
  | zero =>
    intro buf j
    rw [List.range_zero, List.foldl_nil, if_neg (by omega)]
  | succ W ih =>
    intro buf j
    rw [List.range_succ, List.foldl_append, List.foldl_cons, List.foldl_nil,
      List.getElem?_set]
    by_cases hj : off + W = j
    · rw [if_pos hj, foldl_set_length]
      subst hj
      by_cases hlen : off + W < buf.length
      · rw [if_pos hlen, if_pos (by omega)]
        congr 1
        congr 1
        omega
      · rw [if_neg hlen, if_neg (by omega)]
        exact (List.getElem?_eq_none (by omega)).symm
    · rw [if_neg hj, ih]
      by_cases hc : off ≤ j ∧ j < off + W ∧ j < buf.length
      · rw [if_pos hc, if_pos (by omega)]
      · rw [if_neg hc, if_neg (by omega)]

lemma render_loop_length (W : ℕ) (f : ℕ → ℕ → ℕ) :
    ∀ (H : ℕ) (buf : List ℕ),
      ((List.range H).foldl (fun buf row =>
        (List.range W).foldl (fun b column => b.set (row * W + column) (f column row)) buf)
        buf).length = buf.length := by
  intro H
  induction H with
  | zero => intro buf; rfl
  | succ H ih =>
    intro buf
    rw [List.range_succ, List.foldl_append, List.foldl_cons, List.foldl_nil,
      foldl_set_length, ih]

lemma render_loop_getElem? (W : ℕ) (f : ℕ → ℕ → ℕ) :
    ∀ (H : ℕ) (buf : List ℕ) (j : ℕ),
      ((List.range H).foldl (fun buf row =>
        (List.range W).foldl (fun b column => b.set (row * W + column) (f column row)) buf)
        buf)[j]? =
      if j < W * H ∧ j < buf.length then some (f (j % W) (j / W)) else buf[j]? := by
  intro H
  induction H with
  | zero =>
    intro buf j
    rw [List.range_zero, List.foldl_nil, if_neg (by omega)]
  | succ H ih =>
    intro buf j
    rw [List.range_succ, List.foldl_append, List.foldl_cons, List.foldl_nil,
      foldl_set_getElem?, render_loop_length]
    have hexp : W * (H + 1) = W * H + W := by ring
    have hcomm : H * W = W * H := by ring
    by_cases h1 : H * W ≤ j ∧ j < H * W + W ∧ j < buf.length
    · rw [if_pos h1, if_pos (by omega)]
      have hWpos : 0 < W := by omega
      obtain ⟨a, ha, hja⟩ : ∃ a, a < W ∧ j = a + H * W := ⟨j - H * W, by omega, by omega⟩
      subst hja
      rw [Nat.add_mul_mod_self_right, Nat.mod_eq_of_lt ha,
        Nat.add_mul_div_right _ _ hWpos, Nat.div_eq_of_lt ha]
      congr 2 <;> omega
    · rw [if_neg h1, ih]
      by_cases hc : j < W * H ∧ j < buf.length
      · rw [if_pos hc, if_pos (by omega)]
      · rw [if_neg hc, if_neg (by omega)]

lemma render_eq_some (pixels : List ℕ) (bounds : ℕ × ℕ) (ul lr : Cx)
    (h : pixels.length = bounds.1 * bounds.2) :
    ∃ out, render pixels bounds ul lr = some out ∧
      out.length = bounds.1 * bounds.2 ∧
      ∀ j, out[j]? =
        if j < bounds.1 * bounds.2 then
          some (intensity (pixel_to_complex bounds (j % bounds.1, j / bounds.1) ul lr))
        else none := by
  rw [render, if_pos h]
  refine ⟨_, rfl, ?_, ?_⟩
  · rw [render_loop_length, h]
  · intro j
    rw [render_loop_getElem?, h]
    by_cases hj : j < bounds.1 * bounds.2
    · rw [if_pos ⟨hj, hj⟩, if_pos hj]
    · rw [if_neg (by omega), if_neg hj]
      exact List.getElem?_eq_none (by omega)

/-- C4: when the stripe buffer length equals
`stripe_bounds.width * stripe_bounds.height`, `render` passes its
assert and writes every element: the value stored at linear index
`row * width + column` is `0` when `escape_time` of the mapped point
reports non-escape within 255 iterations and `255 - i` when it reports
escape at iteration `i`. -/
theorem render_fills_buffer (pixels : List ℕ) (bounds : ℕ × ℕ) (ul lr : Cx)
    (h : pixels.length = bounds.1 * bounds.2) :
    ∃ out, render pixels bounds ul lr = some out ∧
      out.length = bounds.1 * bounds.2 ∧
      ∀ row column, row < bounds.2 → column < bounds.1 →
        out[row * bounds.1 + column]? =
          some (match escape_time (pixel_to_complex bounds (column, row) ul lr) 255 with
                | none => 0
                | some i => 255 - i) := by
  obtain ⟨out, hout, hlen, hget⟩ := render_eq_some pixels bounds ul lr h
  refine ⟨out, hout, hlen, ?_⟩
  intro row column hrow hcol
  have hidx : row * bounds.1 + column < bounds.1 * bounds.2 := by
    have h1 : (row + 1) * bounds.1 = row * bounds.1 + bounds.1 := by ring
    have h2 : (row + 1) * bounds.1 ≤ bounds.2 * bounds.1 :=
      Nat.mul_le_mul_right _ (by omega)
    have h3 : bounds.2 * bounds.1 = bounds.1 * bounds.2 := by ring
    omega
  rw [hget, if_pos hidx]
  have hmod : (row * bounds.1 + column) % bounds.1 = column := by
    rw [Nat.add_comm, Nat.add_mul_mod_self_right]
    exact Nat.mod_eq_of_lt hcol
  have hdiv : (row * bounds.1 + column) / bounds.1 = row := by
    rw [Nat.add_comm, Nat.add_mul_div_right _ _ (by omega : 0 < bounds.1),
      Nat.div_eq_of_lt hcol, Nat.zero_add]
  rw [hmod, hdiv, intensity]

theorem render_fills_buffer_witness :
    ([0] : List ℕ).length = (1, 1).1 * (1, 1).2 ∧
    ∃ out, render [0] (1, 1) ⟨-1, 1⟩ ⟨1, -1⟩ = some out ∧
      out.length = (1, 1).1 * (1, 1).2 ∧
      ∀ row column, row < (1, 1).2 → column < (1, 1).1 →
        out[row * (1, 1).1 + column]? =
          some (match escape_time (pixel_to_complex (1, 1) (column, row) ⟨-1, 1⟩ ⟨1, -1⟩) 255 with
                | none => 0
                | some i => 255 - i) := by
  exact ⟨rfl, render_fills_buffer [0] (1, 1) ⟨-1, 1⟩ ⟨1, -1⟩ rfl⟩

lemma chunks_nil (s : ℕ) : chunks [] s = [] := by
  rw [chunks]
  simp

lemma chunks_cons (l : List ℕ) (s : ℕ) (hs : s ≠ 0) (hl : l.length ≠ 0) :
    chunks l s = l.take s :: chunks (l.drop s) s := by
  rw [chunks, if_neg hs, if_neg hl]

lemma stripe_point_eq (W H top h col r : ℕ) (ul lr : Cx)
    (hW : 0 < W) (hH : 0 < H) (hh : 0 < h) :
    pixel_to_complex (W, h) (col, r)
      (pixel_to_complex (W, H) (0, top) ul lr)
      (pixel_to_complex (W, H) (W, top + h) ul lr) =
    pixel_to_complex (W, H) (col, top + r) ul lr := by
  have hWQ : (W : ℚ) ≠ 0 := Nat.cast_ne_zero.mpr (by omega)
  have hHQ : (H : ℚ) ≠ 0 := Nat.cast_ne_zero.mpr (by omega)
  have hhQ : (h : ℚ) ≠ 0 := Nat.cast_ne_zero.mpr (by omega)
  simp only [pixel_to_complex]
  rw [Cx.mk.injEq]
  constructor <;> push_cast <;> field_simp <;> try ring

lemma renderStripes_spec (W H rps : ℕ) (ul lr : Cx)
    (hW : 0 < W) (hH : 0 < H) (hrps : 0 < rps) :
    ∀ (N rem i : ℕ), rem ≤ N →
      ∃ L, renderStripes (W, H) ul lr rps
          (chunks (List.replicate (W * rem) 0) (rps * W)) i = some L ∧
        L.length = W * rem ∧
        ∀ j, j < W * rem →
          L[j]? = some (intensity (pixel_to_complex (W, H)
            ((rps * i * W + j) % W, (rps * i * W + j) / W) ul lr)) := by
  intro N
  induction N with
  | zero =>
    intro rem i hrem
    have h0 : rem = 0 := by omega
    subst h0
    rw [Nat.mul_zero, List.replicate_zero, chunks_nil]
    exact ⟨[], rfl, rfl, fun j hj => absurd hj (by omega)⟩
  | succ N ih =>
    intro rem i hrem
    by_cases hrem0 : rem = 0
    · subst hrem0
      rw [Nat.mul_zero, List.replicate_zero, chunks_nil]
      exact ⟨[], rfl, rfl, fun j hj => absurd hj (by omega)⟩
    · have hszW : rps * W ≠ 0 := by positivity
      have hlenW : (List.replicate (W * rem) (0 : ℕ)).length ≠ 0 := by
        rw [List.length_replicate]
        positivity
      rw [chunks_cons _ _ hszW hlenW, List.take_replicate, List.drop_replicate]
      have hmin : rps * W ⊓ (W * rem) = W * (rps ⊓ rem) := by
        rw [Nat.mul_comm rps W, Nat.mul_min_mul_left]
      have hsub : W * rem - rps * W = W * (rem - rps) := by
        rw [Nat.mul_comm rps W, ← Nat.mul_sub]
      rw [hmin, hsub]
      set h := rps ⊓ rem with hh
      have hpos : 0 < h := lt_min (by omega) (by omega)
      obtain ⟨out, hout, holen, hoval⟩ := render_eq_some
        (List.replicate (W * h) 0) (W, h)
        (pixel_to_complex (W, H) (0, rps * i) ul lr)
        (pixel_to_complex (W, H) (W, rps * i + h) ul lr)
        (by rw [List.length_replicate])
      dsimp only at holen hoval
      obtain ⟨L2, hL2, hlen2, hval2⟩ := ih (rem - rps) (i + 1) (by omega)
      refine ⟨out ++ L2, ?_, ?_, ?_⟩
      · rw [renderStripes]
        simp only [List.length_replicate]
        rw [Nat.mul_div_cancel_left h hW]
        rw [hout, hL2]
      · rw [List.length_append, holen, hlen2]
        have hcase : h = rps ∨ (h = rem ∧ rem - rps = 0) := by
          rcases Nat.le_total rps rem with hle | hle
          · left; rw [hh]; omega
          · right; constructor
            · rw [hh]; omega
            · omega
        rcases hcase with hc | ⟨hc1, hc2⟩
        · rw [hc]
          rw [← Nat.mul_add]
          congr 1
          omega
        · rw [hc1, hc2, Nat.mul_zero, Nat.add_zero]
      · intro j hj
        rw [List.getElem?_append, holen]
        by_cases hjh : j < W * h
        · rw [if_pos hjh, hoval j, if_pos hjh]
          have hpt := stripe_point_eq W H (rps * i) h (j % W) (j / W) ul lr hW hH hpos
          rw [hpt]
          have hg1 : rps * i * W + j = j + rps * i * W := by ring
          have hg2 : (rps * i * W + j) % W = j % W := by
            rw [hg1, Nat.add_mul_mod_self_right]
          have hg3 : (rps * i * W + j) / W = rps * i + j / W := by
            rw [hg1, Nat.add_mul_div_right _ _ hW]
            omega
          rw [hg2, hg3]
        · rw [if_neg hjh]
          have hrr : rps ≤ rem := by
            rcases Nat.le_total rps rem with hle | hle
            · exact hle
            · have hhe : h = rem := by rw [hh]; omega
              rw [hhe] at hjh
              omega
          have hhrps : h = rps := by rw [hh]; omega
          rw [hhrps] at hjh ⊢
          have hjlt : j - W * rps < W * (rem - rps) := by
            have he : W * rem = W * rps + W * (rem - rps) := by
              rw [← Nat.mul_add]
              congr 1
              omega
            omega
          rw [hval2 (j - W * rps) hjlt]
          have hg : rps * (i + 1) * W + (j - W * rps) = rps * i * W + j := by
            have e1 : rps * (i + 1) * W = rps * i * W + rps * W := by ring
            have e2 : W * rps = rps * W := by ring
            omega
          rw [hg]

lemma parallelRender_eq_render (W H : ℕ) (ul lr : Cx) (T : ℕ)
    (hW : 0 < W) (hH : 0 < H) :
    parallelRender (W, H) ul lr T =
      render (List.replicate (W * H) 0) (W, H) ul lr := by
  have hrps : 0 < rows_per_stripe H T := Nat.le_add_left 1 (H / T)
  obtain ⟨L, hL, hlen, hval⟩ := renderStripes_spec W H (rows_per_stripe H T) ul lr
    hW hH hrps H H 0 (le_refl H)
  obtain ⟨out, hout, holen, hoval⟩ := render_eq_some (List.replicate (W * H) 0) (W, H)
    ul lr (by rw [List.length_replicate])
  dsimp only at holen hoval
  rw [parallelRender, stripes]
  dsimp only
  rw [hL, hout]
  congr 1
  apply List.ext_getElem?
  intro n
  rw [hoval n]
  by_cases hn : n < W * H
  · rw [if_pos hn]
    have := hval n hn
    rw [this]
    have hz : rows_per_stripe H T * 0 * W + n = n := by ring
    rw [hz]
  · rw [if_neg hn]
    exact List.getElem?_eq_none (by omega)

/-- C1: for positive bounds and a viewport satisfying the viewport
invariant, the stripe decomposition with `T = 1` worker and with
`T = 8` workers (each stripe rendered against its locally recomputed
viewport corners) produce byte-identical pixel buffers. -/
theorem parallel_render_byte_identical (bounds : ℕ × ℕ) (ul lr : Cx)
    (hW : 1 ≤ bounds.1) (hH : 1 ≤ bounds.2)
    (hvp : ul.re < lr.re ∧ lr.im < ul.im) :
    parallelRender bounds ul lr 1 = parallelRender bounds ul lr 8 := by
  obtain ⟨W, H⟩ := bounds
  dsimp only at hW hH
  rw [parallelRender_eq_render W H ul lr 1 (by omega) (by omega),
    parallelRender_eq_render W H ul lr 8 (by omega) (by omega)]

theorem parallel_render_byte_identical_witness :
    1 ≤ (1, 1).1 ∧ 1 ≤ (1, 1).2 ∧
    ((Cx.mk (-1) 1).re < (Cx.mk 1 (-1)).re ∧ (Cx.mk 1 (-1)).im < (Cx.mk (-1) 1).im) ∧
    parallelRender (1, 1) ⟨-1, 1⟩ ⟨1, -1⟩ 1 = parallelRender (1, 1) ⟨-1, 1⟩ ⟨1, -1⟩ 8 := by
  refine ⟨le_refl 1, le_refl 1, ⟨by norm_num, by norm_num⟩, ?_⟩
  exact parallel_render_byte_identical (1, 1) ⟨-1, 1⟩ ⟨1, -1⟩ (le_refl 1) (le_refl 1)
    ⟨by norm_num, by norm_num⟩

/-- C5: `pixel_to_complex` maps pixel `(0, 0)` to `upper_left` for every
bounds and viewport, and on bounds `(100, 100)`, pixel `(25, 75)`,
`upper_left = (-1, 1)`, `lower_right = (1, -1)` it returns exactly
`(-1/2, -1/2)`. -/
theorem pixel_to_complex_corners :
    (∀ (bounds : ℕ × ℕ) (upper_left lower_right : Cx),
      pixel_to_complex bounds (0, 0) upper_left lower_right = upper_left) ∧
    pixel_to_complex (100, 100) (25, 75) ⟨-1, 1⟩ ⟨1, -1⟩ = ⟨-1/2, -1/2⟩ := by
  constructor
  · intro bounds ul lr
    cases ul
    simp [pixel_to_complex]
  · norm_num [pixel_to_complex]

/-- C6: `escape_time c limit` either reports escape at an iteration
index `i < limit` or reports non-escape, and `limit = 0` always gives an
immediate non-escape. -/
theorem escape_time_bounded (c : Cx) (limit : ℕ) :
    (∀ i, escape_time c limit = some i → i < limit) ∧ escape_time c 0 = none := by
  constructor
  · intro i h
    have := escape_time_go_some (c := c) h
    omega
  · rfl

theorem escape_time_bounded_witness :
    (escape_time ⟨3, 0⟩ 1 = some 0 ∧ 0 < 1) ∧ escape_time ⟨3, 0⟩ 0 = none := by
  refine ⟨⟨?_, ?_⟩, (escape_time_bounded ⟨3, 0⟩ 0).2⟩
  · norm_num [escape_time, escape_time_go, Cx.mul, Cx.add, Cx.norm_sqr]
  · exact (escape_time_bounded ⟨3, 0⟩ 1).1 0
      (by norm_num [escape_time, escape_time_go, Cx.mul, Cx.add, Cx.norm_sqr])

/-- C7: for a point outside the radius-2 circle (`norm_sqr c > 4`,
equivalently `|c| > 2`) and any limit of at least one iteration,
`escape_time` reports escape at iteration index `0`: the first iterate
is `c` itself. -/
theorem escape_time_outside_radius (c : Cx) (limit : ℕ)
    (hc : 4 < c.norm_sqr) (hl : 1 ≤ limit) :
    escape_time c limit = some 0 := by
  obtain ⟨fuel, rfl⟩ : ∃ fuel, limit = fuel + 1 := ⟨limit - 1, by omega⟩
  rw [escape_time, escape_time_go]
  have hz : ((Cx.mk 0 0).mul ⟨0, 0⟩).add c = c := by
    cases c
    simp [Cx.mul, Cx.add]
  rw [hz, if_pos hc]

theorem escape_time_outside_radius_witness :
    4 < Cx.norm_sqr ⟨3, 0⟩ ∧ 1 ≤ 1 ∧ escape_time ⟨3, 0⟩ 1 = some 0 := by
  refine ⟨by norm_num [Cx.norm_sqr], le_refl 1,
    escape_time_outside_radius ⟨3, 0⟩ 1 (by norm_num [Cx.norm_sqr]) (le_refl 1)⟩

/-- C8: whenever `escape_time c 255` reports escape at iteration `i`,
the index satisfies `i < 255`, so the stored intensity `255 - i` lies in
`[1, 255]` and fits a `u8` without under- or overflow; a non-escaping
point gets intensity exactly `0`. -/
theorem intensity_range (c : Cx) :
    (∀ i, escape_time c 255 = some i →
      i < 255 ∧ intensity c = 255 - i ∧ 1 ≤ intensity c ∧ intensity c ≤ 255) ∧
    (escape_time c 255 = none → intensity c = 0) := by
  constructor
  · intro i h
    have hi : i < 255 := by
      have := escape_time_go_some (c := c) h
      omega
    have hv : intensity c = 255 - i := by
      rw [intensity, h]
    exact ⟨hi, hv, by omega, by omega⟩
  · intro h
    rw [intensity, h]

lemma escape_time_go_succ_pos (c z : Cx) (idx fuel : ℕ)
    (hgt : 4 < ((z.mul z).add c).norm_sqr) :
    escape_time_go c z idx (fuel + 1) = some idx := by
  rw [escape_time_go, if_pos hgt]

theorem intensity_range_witness :
    escape_time ⟨3, 0⟩ 255 = some 0 ∧
      0 < 255 ∧ intensity ⟨3, 0⟩ = 255 - 0 ∧
      1 ≤ intensity ⟨3, 0⟩ ∧ intensity ⟨3, 0⟩ ≤ 255 := by
  have h : escape_time ⟨3, 0⟩ 255 = some 0 := by
    rw [escape_time, show (255 : ℕ) = 254 + 1 from rfl]
    exact escape_time_go_succ_pos _ _ _ _ (by norm_num [Cx.mul, Cx.add, Cx.norm_sqr])
  have := (intensity_range ⟨3, 0⟩).1 0 h
  exact ⟨h, this.1, this.2.1, this.2.2.1, this.2.2.2⟩

lemma chunkSizes_size_zero (L : ℕ) : chunkSizes 0 L = [] := by
  rw [chunkSizes]
  simp

lemma chunkSizes_len_zero (s : ℕ) : chunkSizes s 0 = [] := by
  rw [chunkSizes]
  simp

lemma chunkSizes_pos (s L : ℕ) (hs : s ≠ 0) (hL : L ≠ 0) :
    chunkSizes s L = min s L :: chunkSizes s (L - s) := by
  rw [chunkSizes, if_neg hs, if_neg hL]

lemma chunks_map_length (s : ℕ) :
    ∀ (l : List ℕ), (chunks l s).map List.length = chunkSizes s l.length := by
  suffices h : ∀ (N : ℕ) (l : List ℕ), l.length ≤ N →
      (chunks l s).map List.length = chunkSizes s l.length by
    intro l
    exact h l.length l (le_refl _)
  intro N
  induction N with
  | zero =>
    intro l hl
    have : l.length = 0 := by omega
    rw [chunks, chunkSizes, this]
    by_cases hs : s = 0 <;> simp [hs]
  | succ N ih =>
    intro l hl
    rw [chunks, chunkSizes]
    by_cases hs : s = 0
    · simp [hs]
    · rw [if_neg hs, if_neg hs]
      by_cases hl0 : l.length = 0
      · simp [hl0]
      · rw [if_neg hl0, if_neg hl0, List.map_cons, List.length_take]
        have hdrop : (l.drop s).length = l.length - s := List.length_drop s l
        have := ih (l.drop s) (by omega)
        rw [this, hdrop]

lemma chunkSizes_map_div (W : ℕ) (hW : 0 < W) (rps : ℕ) :
    ∀ H, (chunkSizes (rps * W) (W * H)).map (fun k => k / W) = chunkSizes rps H := by
  suffices h : ∀ (N H : ℕ), H ≤ N →
      (chunkSizes (rps * W) (W * H)).map (fun k => k / W) = chunkSizes rps H by
    intro H
    exact h H H (le_refl _)
  intro N
  induction N with
  | zero =>
    intro H hH
    have : H = 0 := by omega
    subst this
    rw [Nat.mul_zero, chunkSizes_len_zero, chunkSizes_len_zero, List.map_nil]
  | succ N ih =>
    intro H hH
    by_cases hr : rps = 0
    · subst hr
      rw [Nat.zero_mul, chunkSizes_size_zero, chunkSizes_size_zero, List.map_nil]
    · by_cases hH0 : H = 0
      · subst hH0
        rw [Nat.mul_zero, chunkSizes_len_zero, chunkSizes_len_zero, List.map_nil]
      · rw [chunkSizes_pos (rps * W) (W * H) (by positivity) (by positivity),
          chunkSizes_pos rps H hr hH0, List.map_cons]
        have hmin : min (rps * W) (W * H) / W = min rps H := by
          by_cases hle : rps ≤ H
          · rw [min_eq_left (by nlinarith : rps * W ≤ W * H), min_eq_left hle,
              Nat.mul_div_cancel _ hW]
          · rw [min_eq_right (by nlinarith : W * H ≤ rps * W), min_eq_right (by omega),
              Nat.mul_comm W H, Nat.mul_div_cancel _ hW]
        have hsub : W * H - rps * W = W * (H - rps) := by
          rw [Nat.mul_sub, Nat.mul_comm rps W]
        rw [hmin, hsub, ih (H - rps) (by omega)]

lemma chunkSizes_getD (s : ℕ) (hs : 0 < s) :
    ∀ H i, i < (chunkSizes s H).length →
      (chunkSizes s H).getD i 0 = min s (H - s * i) := by
  suffices h : ∀ (N H : ℕ), H ≤ N → ∀ i, i < (chunkSizes s H).length →
      (chunkSizes s H).getD i 0 = min s (H - s * i) by
    intro H
    exact h H H (le_refl _)
  intro N
  induction N with
  | zero =>
    intro H hH i hi
    have : H = 0 := by omega
    subst this
    rw [chunkSizes_len_zero] at hi
    simp at hi
  | succ N ih =>
    intro H hH i hi
    by_cases hH0 : H = 0
    · subst hH0
      rw [chunkSizes_len_zero] at hi
      simp at hi
    · rw [chunkSizes_pos s H (by omega) hH0] at hi ⊢
      match i with
      | 0 => simp
      | i + 1 =>
        simp only [List.getD_cons_succ, List.length_cons] at hi ⊢
        rw [ih (H - s) (by omega) i (by omega)]
        have : H - s - s * i = H - s * (i + 1) := by
          have hsi : s * (i + 1) = s * i + s := by ring
          omega
        rw [this]

lemma chunkSizes_length_bounds (s : ℕ) (hs : 0 < s) :
    ∀ H, 0 < H →
      0 < (chunkSizes s H).length ∧
      H ≤ s * (chunkSizes s H).length ∧
      s * ((chunkSizes s H).length - 1) < H := by
  suffices h : ∀ (N H : ℕ), H ≤ N → 0 < H →
      0 < (chunkSizes s H).length ∧
      H ≤ s * (chunkSizes s H).length ∧
      s * ((chunkSizes s H).length - 1) < H by
    intro H
    exact h H H (le_refl _)
  intro N
  induction N with
  | zero =>
    intro H hH h0
    omega
  | succ N ih =>
    intro H hH h0
    rw [chunkSizes_pos s H (by omega) (by omega)]
    by_cases hrem : H - s = 0
    · rw [hrem, chunkSizes_len_zero]
      simp only [List.length_cons, List.length_nil]
      omega
    · have := ih (H - s) (by omega) (by omega)
      simp only [List.length_cons]
      set n := (chunkSizes s (H - s)).length with hn
      have hmul : s * (n + 1 - 1) = s * n := by rw [Nat.add_sub_cancel]
      have hmul2 : s * (n + 1) = s * n + s := by ring
      have hmul3 : s * (n - 1) + s = s * n := by
        have : n - 1 + 1 = n := by omega
        calc s * (n - 1) + s = s * (n - 1 + 1) := by ring
          _ = s * n := by rw [this]
      refine ⟨by omega, by omega, by omega⟩

lemma stripeHeights_eq (width height threads : ℕ) (hW : 0 < width) :
    stripeHeights width height threads =
      chunkSizes (rows_per_stripe height threads) height := by
  rw [stripeHeights, stripes]
  have h1 : (chunks (List.replicate (width * height) 0)
      (rows_per_stripe height threads * width)).map (fun s => s.length / width) =
      ((chunks (List.replicate (width * height) 0)
        (rows_per_stripe height threads * width)).map List.length).map
          (fun k => k / width) := by
    rw [List.map_map]
    rfl
  rw [h1, chunks_map_length, List.length_replicate,
    chunkSizes_map_div width hW (rows_per_stripe height threads) height]

lemma stripes_length_eq (width height threads : ℕ) :
    (stripes width height threads).length =
      (chunkSizes (rows_per_stripe height threads * width)
        (width * height)).length := by
  have := chunks_map_length (rows_per_stripe height threads * width)
    (List.replicate (width * height) 0)
  rw [List.length_replicate] at this
  calc (stripes width height threads).length
      = ((stripes width height threads).map List.length).length := by
        rw [List.length_map]
    _ = _ := by rw [stripes, this]

/-- C2: for `width ≥ 1`, `height ≥ 1`, `T ≥ 1` the stripes cut by the
scheduler partition the row range `[0, height)` exactly: every row lies
in exactly one stripe's row range, every stripe except possibly the
last has exactly `rows_per_stripe` rows, and the last stripe's height
lies in `[1, rows_per_stripe]`. -/
theorem stripes_partition_rows (width height threads : ℕ)
    (hW : 1 ≤ width) (hH : 1 ≤ height) (hT : 1 ≤ threads) :
    (∀ r, r < height → ∃! i, i < (stripeHeights width height threads).length ∧
      rows_per_stripe height threads * i ≤ r ∧
      r < rows_per_stripe height threads * i +
        (stripeHeights width height threads).getD i 0) ∧
    (∀ i, i + 1 < (stripeHeights width height threads).length →
      (stripeHeights width height threads).getD i 0 =
        rows_per_stripe height threads) ∧
    1 ≤ (stripeHeights width height threads).getD
      ((stripeHeights width height threads).length - 1) 0 ∧
    (stripeHeights width height threads).getD
      ((stripeHeights width height threads).length - 1) 0 ≤
        rows_per_stripe height threads := by
  rw [stripeHeights_eq width height threads (by omega)]
  set rps := rows_per_stripe height threads with hrps
  have hrps1 : 1 ≤ rps := Nat.le_add_left 1 (height / threads)
  set N := (chunkSizes rps height).length with hN
  have hbounds := chunkSizes_length_bounds rps (by omega) height (by omega)
  rw [← hN] at hbounds
  have hget : ∀ i, i < N → (chunkSizes rps height).getD i 0 = min rps (height - rps * i) :=
    fun i hi => chunkSizes_getD rps (by omega) height i (hN ▸ hi)
  refine ⟨?_, ?_, ?_, ?_⟩
  · intro r hr
    refine ⟨r / rps, ⟨?_, ?_, ?_⟩, ?_⟩
    · -- r / rps < N
      have h1 : rps * (r / rps) ≤ r := Nat.mul_div_le r rps
      have h2 : rps * (r / rps) < rps * N := by omega
      exact Nat.lt_of_mul_lt_mul_left h2
    · exact Nat.mul_div_le r rps
    · have hiN : r / rps < N := by
        have h1 : rps * (r / rps) ≤ r := Nat.mul_div_le r rps
        have h2 : rps * (r / rps) < rps * N := by omega
        exact Nat.lt_of_mul_lt_mul_left h2
      rw [hget (r / rps) hiN]
      have h1 : rps * (r / rps) ≤ r := Nat.mul_div_le r rps
      have h2 : r < rps * (r / rps) + rps := by
        have hdm := Nat.div_add_mod r rps
        have hml : r % rps < rps := Nat.mod_lt _ (by omega)
        omega
      omega
    · intro j hj
      obtain ⟨hjN, hj1, hj2⟩ := hj
      have hgj : (chunkSizes rps height).getD j 0 ≤ rps := by
        rw [hget j hjN]; omega
      have hj3 : r < rps * j + rps := by omega
      have hj4 : r < rps * (j + 1) := by
        have : rps * (j + 1) = rps * j + rps := by ring
        omega
      have hle : j ≤ r / rps := (Nat.le_div_iff_mul_le (by omega)).mpr
        (by rw [Nat.mul_comm]; exact hj1)
      have hlt : r / rps < j + 1 := (Nat.div_lt_iff_lt_mul (by omega)).mpr (by
        calc r < rps * (j + 1) := hj4
          _ = (j + 1) * rps := by ring)
      omega
  · intro i hi
    rw [hget i (by omega)]
    have h1 : i + 1 ≤ N - 1 := by omega
    have h2 : rps * (i + 1) ≤ rps * (N - 1) := Nat.mul_le_mul_left rps h1
    have h3 : rps * (i + 1) = rps * i + rps := by ring
    omega
  · rw [hget (N - 1) (by omega)]
    omega
  · rw [hget (N - 1) (by omega)]
    omega

theorem stripes_partition_rows_witness :
    1 ≤ 1 ∧ 1 ≤ 1 ∧
    (∀ r, r < 1 → ∃! i, i < (stripeHeights 1 1 1).length ∧
      rows_per_stripe 1 1 * i ≤ r ∧
      r < rows_per_stripe 1 1 * i + (stripeHeights 1 1 1).getD i 0) := by
  exact ⟨le_refl 1, le_refl 1,
    (stripes_partition_rows 1 1 1 (le_refl 1) (le_refl 1) (le_refl 1)).1⟩

/-- C9: for `width ≥ 1`, `height ≥ 1`, `T ≥ 1` the scheduler creates at
least one and at most `T` stripes, so no more than `T` workers are ever
spawned. -/
theorem stripe_count_le_threads (width height threads : ℕ)
    (hW : 1 ≤ width) (hH : 1 ≤ height) (hT : 1 ≤ threads) :
    1 ≤ (stripes width height threads).length ∧
      (stripes width height threads).length ≤ threads := by
  have hlen : (stripes width height threads).length =
      (stripeHeights width height threads).length := by
    rw [stripeHeights, List.length_map]
  rw [hlen, stripeHeights_eq width height threads (by omega)]
  set rps := rows_per_stripe height threads with hrps
  have hrps1 : 1 ≤ rps := Nat.le_add_left 1 (height / threads)
  have hbounds := chunkSizes_length_bounds rps (by omega) height (by omega)
  set N := (chunkSizes rps height).length with hN
  refine ⟨by omega, ?_⟩
  -- height ≤ rps * threads, hence rps * (N - 1) < rps * threads, hence N ≤ threads
  have hcover : height ≤ rps * threads := by
    have hq := Nat.div_add_mod height threads
    have hmod : height % threads < threads := Nat.mod_lt _ (by omega)
    have : rps * threads = threads * (height / threads) + threads := by
      rw [hrps, rows_per_stripe]
      ring
    omega
  have h1 : rps * (N - 1) < rps * threads := by omega
  have h2 : N - 1 < threads := Nat.lt_of_mul_lt_mul_left h1
  omega

theorem stripe_count_le_threads_witness :
    1 ≤ 1 ∧ 1 ≤ (stripes 1 1 1).length ∧ (stripes 1 1 1).length ≤ 1 := by
  have := stripe_count_le_threads 1 1 1 (le_refl 1) (le_refl 1) (le_refl 1)
  exact ⟨le_refl 1, this.1, this.2⟩

/-- C3 counterexample: at `height = 1`, `threads = 1` the scheduler
computes `rows_per_stripe = 1 / 1 + 1 = 2`, while
`ceil(1 / 1) = (1 + 1 - 1) / 1 = 1`, so `height / T + 1` is not the
ceiling of `height / T`. -/
theorem rows_per_stripe_ne_ceil : ¬ (rows_per_stripe 1 1 = (1 + 1 - 1) / 1) := by
  decide

lemma ceil_div_eq (height threads : ℕ) (hT : 1 ≤ threads) :
    (height + threads - 1) / threads =
      height / threads + if threads ∣ height then 0 else 1 := by
  have h1 : height + threads - 1 = height + (threads - 1) := by omega
  rw [h1, Nat.add_div (by omega)]
  have h2 : (threads - 1) / threads = 0 := Nat.div_eq_of_lt (by omega)
  have h3 : (threads - 1) % threads = threads - 1 := Nat.mod_eq_of_lt (by omega)
  have h4 : height % threads = 0 ↔ threads ∣ height :=
    (Nat.dvd_iff_mod_eq_zero).symm
  have h5 : height % threads < threads := Nat.mod_lt _ (by omega)
  rw [h2, h3]
  by_cases hd : threads ∣ height
  · rw [if_pos hd, if_neg (by omega : ¬ threads ≤ height % threads + (threads - 1))]
  · rw [if_neg hd, if_pos (by omega : threads ≤ height % threads + (threads - 1))]

/-- C3 amended: for `height ≥ 1`, `T ≥ 1` the scheduler's stripe row
count `height / T + 1` equals `ceil(height / T)` exactly when `T` does
not divide `height`; when `T` divides `height` it equals
`ceil(height / T) + 1`. In both cases it is at least the ceiling, so
coverage is still guaranteed. -/
theorem rows_per_stripe_vs_ceil (height threads : ℕ) (hH : 1 ≤ height) (hT : 1 ≤ threads) :
    (¬ threads ∣ height →
      rows_per_stripe height threads = (height + threads - 1) / threads) ∧
    (threads ∣ height →
      rows_per_stripe height threads = (height + threads - 1) / threads + 1) := by
  have h := ceil_div_eq height threads hT
  constructor
  · intro hd
    rw [h, if_neg hd, rows_per_stripe]
  · intro hd
    rw [h, if_pos hd, rows_per_stripe]

theorem rows_per_stripe_vs_ceil_witness :
    1 ≤ 4 ∧ 1 ≤ 2 ∧ (2 ∣ 4 → rows_per_stripe 4 2 = (4 + 2 - 1) / 2 + 1) := by
  exact ⟨by decide, by decide, (rows_per_stripe_vs_ceil 4 2 (by decide) (by decide)).2⟩

end Mandelbrot

namespace GcdServer

lemma gcd_loop_eq_gcd : ∀ m n : ℕ, n ≠ 0 → gcd_loop m n = Nat.gcd m n := by
  intro m
  induction m using Nat.strong_induction_on with
  | _ m ih =>
    intro n hn
    rw [gcd_loop]
    by_cases hm : m = 0
    · simp [hm]
    · rw [if_neg hm]
      by_cases hlt : m < n
      · rw [if_pos hlt]
        have hrec := ih (n % m) (Nat.mod_lt _ (Nat.pos_of_ne_zero hm)) m hm
        rw [hrec, ← Nat.gcd_rec]
      · rw [if_neg hlt, if_neg hn]
        have hmod : m % n < m :=
          Nat.lt_of_lt_of_le (Nat.mod_lt _ (Nat.pos_of_ne_zero hn)) (Nat.le_of_not_lt hlt)
        have hrec := ih (m % n) hmod n hn
        rw [hrec, ← Nat.gcd_rec, Nat.gcd_comm]

/-- C10: for nonzero 64-bit values `m`, `n`, `gcd` passes its assert and
the subtraction-free Euclid loop returns the greatest common divisor:
the result divides both arguments and every common divisor divides the
result. -/
theorem gcd_correct (m n : ℕ) (hm : m ≠ 0) (hn : n ≠ 0)
    (hm64 : m < 2 ^ 64) (hn64 : n < 2 ^ 64) :
    ∃ g, gcd m n = some g ∧ g ∣ m ∧ g ∣ n ∧ ∀ d, d ∣ m → d ∣ n → d ∣ g := by
  refine ⟨gcd_loop m n, by rw [gcd, if_pos ⟨hm, hn⟩], ?_, ?_, ?_⟩
  · rw [gcd_loop_eq_gcd m n hn]; exact Nat.gcd_dvd_left m n
  · rw [gcd_loop_eq_gcd m n hn]; exact Nat.gcd_dvd_right m n
  · intro d hdm hdn
    rw [gcd_loop_eq_gcd m n hn]
    exact Nat.dvd_gcd hdm hdn

theorem gcd_correct_witness :
    (12 : ℕ) ≠ 0 ∧ (18 : ℕ) ≠ 0 ∧
    ∃ g, gcd 12 18 = some g ∧ g ∣ 12 ∧ g ∣ 18 ∧ ∀ d, d ∣ 12 → d ∣ 18 → d ∣ g := by
  exact ⟨by decide, by decide,
    gcd_correct 12 18 (by decide) (by decide) (by norm_num) (by norm_num)⟩

end GcdServer
